import Mathlib

/-!
Verification of the hierarchical tree store of `libargos` (files
`src/libargos/qt/treeitems.py`), shallowly embedded in Lean 4.

Python objects of class `BaseTreeItem` (and its subclass
`AbstractLazyLoadTreeItem`) are modelled by the inductive type
`BaseTreeItem` below.  Object identity is modelled by a `nodeId : Nat`
field chosen by the caller at construction time; the `_parentItem`
back-pointer is modelled as the `nodeId` of the parent object
(`Option Nat`).  Mutating methods become functions from the old value to
the new value; methods that can raise return `Except TreeError _`, where
`TreeError` is the error taxonomy (`InvalidArgument`, `IndexOutOfRange`,
`NotFound`, `InvalidState`); a Python `assert` or `IndexError` at a given
call site is mapped to the corresponding error kind.
-/

/-- The error kinds raised by the tree core: `invalidArgument` for a
malformed name or path, `indexOutOfRange` for a position outside valid
bounds, `notFound` for a failed name/path resolution, `invalidState` for
a contract violation (double fetch, re-parenting an already-parented
node). -/
inductive TreeError : Type where
  | invalidArgument
  | indexOutOfRange
  | notFound
  | invalidState
deriving DecidableEq, Repr

/-- Model of a Python `BaseTreeItem` object: `nodeId` models object
identity, `nodeName` the `_nodeName` attribute, `nodePath` the cached
`_nodePath` attribute, `parentItem` the `_parentItem` back-pointer (as
the parent's `nodeId`, `none` when detached), `childrenFetched` the
`_childrenFetched` flag of the `AbstractLazyLoadTreeItem` subclass
(unused by plain base items), and `childItems` the `_childItems` list. -/
inductive BaseTreeItem : Type where
  | mk (nodeId : Nat) (nodeName : String) (nodePath : String)
       (parentItem : Option Nat) (childrenFetched : Bool)
       (childItems : List BaseTreeItem)

namespace BaseTreeItem

def nodeId : BaseTreeItem → Nat
  | .mk i _ _ _ _ _ => i

def nodeName : BaseTreeItem → String
  | .mk _ n _ _ _ _ => n

def nodePath : BaseTreeItem → String
  | .mk _ _ p _ _ _ => p

def parentItem : BaseTreeItem → Option Nat
  | .mk _ _ _ par _ _ => par

def childrenFetched : BaseTreeItem → Bool
  | .mk _ _ _ _ f _ => f

def childItems : BaseTreeItem → List BaseTreeItem
  | .mk _ _ _ _ _ cs => cs

/-- `nChildren` of the source: the length of the child list. -/
def nChildren (t : BaseTreeItem) : Nat := t.childItems.length

/-- Replace the child list, leaving every other attribute unchanged. -/
def setChildItems : BaseTreeItem → List BaseTreeItem → BaseTreeItem
  | .mk i n p par f _, cs => .mk i n p par f cs

/-- Replace the `childrenFetched` flag, leaving everything else unchanged. -/
def setChildrenFetched : BaseTreeItem → Bool → BaseTreeItem
  | .mk i n p par _ cs, f => .mk i n p par f cs

/-- Python `nodePath.startswith('/')`. -/
def startsWithSlash (s : String) : Bool :=
  match s.data with
  | [] => false
  | c :: _ => c == '/'

/-- Python `'/' in s`. -/
def containsSlash (s : String) : Bool := s.data.contains '/'

/-- Auxiliary for `splitSlash`: splits a character list at `'/'`,
accumulating the current segment in reverse. -/
def splitSlashAux : List Char → List Char → List String
  | [], acc => [String.mk acc.reverse]
  | c :: rest, acc =>
      if c = '/' then String.mk acc.reverse :: splitSlashAux rest []
      else splitSlashAux rest (c :: acc)

/-- Python `s.split('/')`: e.g. `"a/b" ↦ ["a","b"]`, `"" ↦ [""]`,
`"/a" ↦ ["","a"]`, `"a//b" ↦ ["a","","b"]`. -/
def splitSlash (s : String) : List String := splitSlashAux s.data []

/-- `BaseTreeItem._constructNodePath`: the empty string for a detached
node (no parent), otherwise the parent's cached `nodePath`, a slash, and
this node's name.  The caller supplies the parent's cached path (or
`none` when `_parentItem is None`). -/
def constructNodePath (parentPath : Option String) (name : String) : String :=
  match parentPath with
  | none => ""
  | some pp => pp ++ "/" ++ name

/-- `BaseTreeItem.__init__`: fails (assert `nodeName` non-empty, mapped
to `InvalidArgument`) on the empty name; otherwise the new node is
detached (`parentItem = none`), has no children, and its cached path is
`_constructNodePath()` of a parentless node, i.e. the empty string.
The slash character is NOT checked here (only the `nodeName` setter
checks it). -/
def init (nodeId : Nat) (nodeName : String) : Except TreeError BaseTreeItem :=
  if nodeName = "" then .error .invalidArgument
  else .ok (.mk nodeId nodeName (constructNodePath none nodeName) none false [])

mutual
/-- `BaseTreeItem._recursiveSetNodePath`: store the new path and update
every child to `newPath + '/' + child.nodeName`, recursively. -/
def recursiveSetNodePath : BaseTreeItem → String → BaseTreeItem
  | .mk i n _ par f cs, newPath => .mk i n newPath par f (recursiveSetNodePathL cs newPath)
/-- The loop over `childItems` inside `_recursiveSetNodePath`. -/
def recursiveSetNodePathL : List BaseTreeItem → String → List BaseTreeItem
  | [], _ => []
  | c :: cs, parentPath =>
      recursiveSetNodePath c (parentPath ++ "/" ++ c.nodeName) :: recursiveSetNodePathL cs parentPath
end

/-- The `nodeName` setter: asserts that the new name contains no slash
(mapped to `InvalidArgument`; the empty name is NOT rejected here), sets
`_nodeName`, and calls `_recursiveSetNodePath(_constructNodePath())`.
`parentPath` is the cached `nodePath` of the parent object (`none` when
the node is detached), as `_constructNodePath` would read it. -/
def setNodeName (t : BaseTreeItem) (parentPath : Option String) (newName : String) :
    Except TreeError BaseTreeItem :=
  if containsSlash newName then .error .invalidArgument
  else
    match t with
    | .mk i _ p par f cs =>
        .ok (recursiveSetNodePath (.mk i newName p par f cs)
              (constructNodePath parentPath newName))

/-- The `parentItem` setter: stores the new parent reference and calls
`_recursiveSetNodePath(_constructNodePath())`.  `newParent` carries the
parent object's identity and cached `nodePath` (`none` detaches). -/
def setParentItem (t : BaseTreeItem) (newParent : Option (Nat × String)) : BaseTreeItem :=
  match t with
  | .mk i n p _ f cs =>
      recursiveSetNodePath (.mk i n p (newParent.map Prod.fst) f cs)
        (constructNodePath (newParent.map Prod.snd) n)

/-- `BaseTreeItem.childByNodeName`: asserts the name has no slash, then
returns the first direct child whose `nodeName` equals it; raises
`IndexError` (mapped to `NotFound`) when no child matches. -/
def childByNodeName (t : BaseTreeItem) (name : String) : Except TreeError BaseTreeItem :=
  if containsSlash name then .error .invalidArgument
  else
    match t.childItems.find? (fun c => c.nodeName == name) with
    | some c => .ok c
    | none => .error .notFound

/-- `_auxGetByPath` inside `BaseTreeItem.findByNodePath`: no parts left
returns the current item; an empty head (two consecutive slashes) goes
one level deeper on the same item; otherwise resolve the head with
`childByNodeName` and recurse on the tail. -/
def auxGetByPath : List String → BaseTreeItem → Except TreeError BaseTreeItem
  | [], item => .ok item
  | head :: tail, item =>
      if head = "" then auxGetByPath tail item
      else
        match childByNodeName item head with
        | .ok childItem => auxGetByPath tail childItem
        | .error e => .error e

/-- `BaseTreeItem.findByNodePath`: asserts the path does not start with
a slash (mapped to `InvalidArgument`), raises `IndexError` (mapped to
`NotFound`) on the empty path, and otherwise resolves
`nodePath.split('/')` with `_auxGetByPath` starting at this node. -/
def findByNodePath (t : BaseTreeItem) (path : String) : Except TreeError BaseTreeItem :=
  if startsWithSlash path then .error .invalidArgument
  else if path = "" then .error .notFound
  else auxGetByPath (splitSlash path) t

/-- `BaseTreeItem.insertChild`: a `position` of `none` defaults to
`nChildren()`.  Asserts `0 <= position <= len(childItems)` (mapped to
`IndexOutOfRange`), then asserts the child has no parent yet (mapped to
`InvalidState`).  On success assigns `childItem.parentItem = self`
(which recomputes the child's subtree paths) and inserts the child at
`position`.  Returns the updated parent together with the inserted
child object (the source returns `childItem`, mutated in place). -/
def insertChild (t : BaseTreeItem) (childItem : BaseTreeItem) (position : Option Int) :
    Except TreeError (BaseTreeItem × BaseTreeItem) :=
  let pos : Int := position.getD t.nChildren
  if pos < 0 ∨ pos > (t.childItems.length : Int) then .error .indexOutOfRange
  else if childItem.parentItem.isSome then .error .invalidState
  else
    let c := setParentItem childItem (some (t.nodeId, t.nodePath))
    .ok (setChildItems t (t.childItems.insertIdx pos.toNat c), c)

mutual
/-- `BaseTreeItem.finalize`, modelled by its observable effect: the
sequence of node identities in the order in which their resources are
released.  The source finalizes the children in list order and then the
node closes itself ("Finalizes its children before closing itself"),
so the node's own identity comes after all of its descendants'. -/
def finalize : BaseTreeItem → List Nat
  | .mk i _ _ _ _ cs => finalizeL cs ++ [i]
/-- The loop over `childItems` inside `finalize`. -/
def finalizeL : List BaseTreeItem → List Nat
  | [] => []
  | c :: cs => finalize c ++ finalizeL cs
end

/-- `BaseTreeItem.removeChild`: asserts `0 <= position <= len(childItems)`
(mapped to `IndexOutOfRange`); at `position = len(childItems)` the assert
passes but `childItems[position]` raises `IndexError` (also mapped to
`IndexOutOfRange`) before anything is mutated.  On a valid position it
finalizes the child and pops it from the list.  Returns the updated
parent, the removed child object exactly as the call leaves it, and the
finalization trace. -/
def removeChild (t : BaseTreeItem) (position : Int) :
    Except TreeError (BaseTreeItem × BaseTreeItem × List Nat) :=
  if position < 0 ∨ position > (t.childItems.length : Int) then .error .indexOutOfRange
  else
    match t.childItems[position.toNat]? with
    | none => .error .indexOutOfRange
    | some c => .ok (setChildItems t (t.childItems.eraseIdx position.toNat), c, finalize c)

/-- `BaseTreeItem.removeAllChildren`: finalizes every child in order and
replaces `_childItems` by the empty list.  Returns the updated node, the
removed child objects exactly as the call leaves them, and the
finalization trace.  The base class does not touch `childrenFetched`. -/
def removeAllChildren (t : BaseTreeItem) : BaseTreeItem × List BaseTreeItem × List Nat :=
  (setChildItems t [], t.childItems, finalizeL t.childItems)

end BaseTreeItem

namespace AbstractLazyLoadTreeItem

/-- `AbstractLazyLoadTreeItem.__init__`: the base constructor followed by
`self._childrenFetched = False`. -/
def init (nodeId : Nat) (nodeName : String) : Except TreeError BaseTreeItem :=
  (BaseTreeItem.init nodeId nodeName).map (fun t => t.setChildrenFetched false)

/-- `AbstractLazyLoadTreeItem.hasChildren`: unconditionally `True`. -/
def hasChildren (_ : BaseTreeItem) : Bool := true

/-- `AbstractLazyLoadTreeItem.canFetchChildren`: `not self._childrenFetched`. -/
def canFetchChildren (t : BaseTreeItem) : Bool := !t.childrenFetched

/-- `AbstractLazyLoadTreeItem.fetchChildren`: asserts the flag is still
false (mapped to `InvalidState`), then runs the abstract production step
`_fetchAllChildren` — modelled by its outcome `produce`, either a domain
error `ε` or a list of produced (detached) children — then sets the flag
and returns the produced children without inserting them.  The result is
the state of the node after the call paired with the outcome: when the
production step raises, the flag assignment is never reached, so the
node is returned unchanged and the error propagates (as `Sum.inr`). -/
def fetchChildren {ε : Type} (t : BaseTreeItem) (produce : Except ε (List BaseTreeItem)) :
    BaseTreeItem × Except (TreeError ⊕ ε) (List BaseTreeItem) :=
  if t.childrenFetched then (t, .error (.inl .invalidState))
  else
    match produce with
    | .error e => (t, .error (.inr e))
    | .ok cs => (t.setChildrenFetched true, .ok cs)

/-- `AbstractLazyLoadTreeItem.removeAllChildren`: the base behaviour,
followed by resetting `_childrenFetched` to `False`. -/
def removeAllChildren (t : BaseTreeItem) : BaseTreeItem × List BaseTreeItem × List Nat :=
  let r := BaseTreeItem.removeAllChildren t
  (r.1.setChildrenFetched false, r.2.1, r.2.2)

end AbstractLazyLoadTreeItem

namespace BaseTreeItem

/-! ### Store-level operations

The store (`RepoTreeModel` / `BaseTreeModel`) owns an invisible root
item — a `BaseTreeItem` that never has a parent, so its cached path is
the empty string — and mutates nodes reached from it.  A node inside the
rooted tree is designated here by its chain of child indices from the
root (the model's `QModelIndex` plays this role in the source). -/

/-- Look up the node at a chain of child indices, starting at `t`. -/
def navigate : BaseTreeItem → List Nat → Option BaseTreeItem
  | t, [] => some t
  | t, i :: rest =>
    match t.childItems[i]? with
    | none => none
    | some c => navigate c rest

/-- Create a fresh detached node (`BaseTreeItem.__init__`) with identity
`newId` and name `name`, and insert it with `insertChild` under the node
at `addr`.  Returns the updated root and the inserted child object. -/
def insertFreshAt : BaseTreeItem → List Nat → Nat → String → Option Int →
    Except TreeError (BaseTreeItem × BaseTreeItem)
  | t, [], newId, name, pos => do
      let fresh ← init newId name
      insertChild t fresh pos
  | t, i :: rest, newId, name, pos =>
    match t.childItems[i]? with
    | none => .error .notFound
    | some c => do
        let r ← insertFreshAt c rest newId name pos
        .ok (t.setChildItems (t.childItems.set i r.1), r.2)

/-- Apply the `nodeName` setter to the node at `addr`.  `parentPath` is
the cached path of the current node's parent (`none` at the root); while
descending it is the path the setter's `_constructNodePath` would read. -/
def renameAt : BaseTreeItem → Option String → List Nat → String →
    Except TreeError BaseTreeItem
  | t, parentPath, [], newName => setNodeName t parentPath newName
  | t, _, i :: rest, newName =>
    match t.childItems[i]? with
    | none => .error .notFound
    | some c => do
        let c' ← renameAt c (some t.nodePath) rest newName
        .ok (t.setChildItems (t.childItems.set i c'))

/-- Detach the node at `addr` from its parent's child list, as the host
does when re-parenting (a bare `childItems.remove` — no finalization and
no change to the detached object itself).  The root cannot be detached.
Returns the updated root and the detached subtree. -/
def extractAt : BaseTreeItem → List Nat → Except TreeError (BaseTreeItem × BaseTreeItem)
  | _, [] => .error .notFound
  | t, [i] =>
    match t.childItems[i]? with
    | none => .error .notFound
    | some c => .ok (t.setChildItems (t.childItems.eraseIdx i), c)
  | t, i :: j :: rest =>
    match t.childItems[i]? with
    | none => .error .notFound
    | some c => do
        let r ← extractAt c (j :: rest)
        .ok (t.setChildItems (t.childItems.set i r.1), r.2)

/-- Attach an already-detached-from-its-list subtree `c` under the node
at `addr`: the `parentItem` setter (`c.parentItem = newParent`, which
recomputes `c`'s subtree paths) followed by a `list.insert` at `pos`
(Python's `insert` clamps an out-of-range position to the end). -/
def attachAt : BaseTreeItem → List Nat → Nat → BaseTreeItem →
    Except TreeError BaseTreeItem
  | t, [], pos, c =>
      let c' := c.setParentItem (some (t.nodeId, t.nodePath))
      .ok (t.setChildItems (t.childItems.insertIdx (min pos t.childItems.length) c'))
  | t, i :: rest, pos, c =>
    match t.childItems[i]? with
    | none => .error .notFound
    | some ch => do
        let ch' ← attachAt ch rest pos c
        .ok (t.setChildItems (t.childItems.set i ch'))

/-- A store mutation: insert a freshly created node, rename a node, or
re-parent (move) a subtree. -/
inductive TreeOp : Type where
  | insertOp (addr : List Nat) (newId : Nat) (name : String) (pos : Option Int)
  | renameOp (addr : List Nat) (newName : String)
  | reparentOp (src : List Nat) (dst : List Nat) (pos : Nat)

/-- Run one mutation on the rooted tree.  A failed operation raises
before mutating anything, so it leaves the tree unchanged. -/
def applyOp (t : BaseTreeItem) : TreeOp → BaseTreeItem
  | .insertOp addr newId name pos =>
    match insertFreshAt t addr newId name pos with
    | .ok r => r.1
    | .error _ => t
  | .renameOp addr newName =>
    match renameAt t none addr newName with
    | .ok t' => t'
    | .error _ => t
  | .reparentOp src dst pos =>
    match (do
      let r ← extractAt t src
      attachAt r.1 dst pos r.2) with
    | .ok t' => t'
    | .error _ => t

/-- Run a sequence of mutations on the rooted tree. -/
def applyOps (t : BaseTreeItem) (ops : List TreeOp) : BaseTreeItem :=
  ops.foldl applyOp t

/-! ### Invariant checkers and reachability relations -/

mutual
/-- Path consistency: every child's cached `nodePath` equals its
parent's cached `nodePath` ++ "/" ++ its `nodeName`, recursively. -/
def pathsOkB : BaseTreeItem → Bool
  | .mk _ _ p _ _ cs => pathsOkL p cs
/-- `pathsOkB` over a child list whose parent's cached path is `pp`. -/
def pathsOkL : String → List BaseTreeItem → Bool
  | _, [] => true
  | pp, c :: cs => (c.nodePath == pp ++ "/" ++ c.nodeName) && pathsOkB c && pathsOkL pp cs
end

mutual
/-- Back-pointer consistency: every child's `parentItem` holds its
parent's `nodeId`, recursively. -/
def linkedB : BaseTreeItem → Bool
  | .mk i _ _ _ _ cs => linkedL i cs
/-- `linkedB` over a child list whose parent's identity is `i`. -/
def linkedL : Nat → List BaseTreeItem → Bool
  | _, [] => true
  | i, c :: cs => (c.parentItem == some i) && linkedB c && linkedL i cs
end

mutual
/-- Every strict descendant of the node has a non-empty, slash-free name. -/
def validNamesB : BaseTreeItem → Bool
  | .mk _ _ _ _ _ cs => validNamesL cs
/-- `validNamesB` over a child list. -/
def validNamesL : List BaseTreeItem → Bool
  | [] => true
  | c :: cs => (!(c.nodeName == "")) && !containsSlash c.nodeName && validNamesB c && validNamesL cs
end

/-- No two of the given strings are equal (sibling-name uniqueness). -/
def nodupNamesB : List String → Bool
  | [] => true
  | n :: ns => (!ns.contains n) && nodupNamesB ns

mutual
/-- Sibling names are pairwise distinct throughout the subtree. -/
def uniqSibB : BaseTreeItem → Bool
  | .mk _ _ _ _ _ cs => nodupNamesB (cs.map nodeName) && uniqSibL cs
/-- `uniqSibB` over a child list. -/
def uniqSibL : List BaseTreeItem → Bool
  | [] => true
  | c :: cs => uniqSibB c && uniqSibL cs
end

/-- `Chain t segs d`: starting at `t` and stepping to a direct child at
each step, the names along the steps are `segs` and the node reached is
`d`.  `Chain t segs d` with `segs ≠ []` says `d` is a node of `t`'s
subtree proper. -/
inductive Chain : BaseTreeItem → List String → BaseTreeItem → Prop where
  | nil (t : BaseTreeItem) : Chain t [] t
  | cons {t c d : BaseTreeItem} {segs : List String} :
      c ∈ t.childItems → Chain c segs d → Chain t (c.nodeName :: segs) d

/-- `SubNode t d`: `d` is a node of the subtree rooted at `t` (possibly
`t` itself). -/
inductive SubNode : BaseTreeItem → BaseTreeItem → Prop where
  | refl (t : BaseTreeItem) : SubNode t t
  | child {t c d : BaseTreeItem} : c ∈ t.childItems → SubNode c d → SubNode t d

/-- `StrictBelow d e`: `e` is a strict descendant of `d` (it lies in
the subtree of one of `d`'s children). -/
def StrictBelow (d e : BaseTreeItem) : Prop := ∃ m ∈ d.childItems, SubNode m e

/-- The path contribution of a chain of names: a slash before each
name, e.g. `joinSegs ["a", "b"] = "/a/b"`. -/
def joinSegs : List String → String
  | [] => ""
  | s :: rest => "/" ++ s ++ joinSegs rest

/-! ### Basic lemmas -/

@[simp] theorem nodeId_mk (i n p par f cs) : nodeId (.mk i n p par f cs) = i := rfl
@[simp] theorem nodeName_mk (i n p par f cs) : nodeName (.mk i n p par f cs) = n := rfl
@[simp] theorem nodePath_mk (i n p par f cs) : nodePath (.mk i n p par f cs) = p := rfl
@[simp] theorem parentItem_mk (i n p par f cs) : parentItem (.mk i n p par f cs) = par := rfl
@[simp] theorem childrenFetched_mk (i n p par f cs) : childrenFetched (.mk i n p par f cs) = f := rfl
@[simp] theorem childItems_mk (i n p par f cs) : childItems (.mk i n p par f cs) = cs := rfl
@[simp] theorem setChildItems_mk (i n p par f cs cs') :
    setChildItems (.mk i n p par f cs) cs' = .mk i n p par f cs' := rfl
@[simp] theorem setChildrenFetched_mk (i n p par f cs f') :
    setChildrenFetched (.mk i n p par f cs) f' = .mk i n p par f' cs := rfl

@[simp] theorem nodeId_setChildItems (t cs') : (setChildItems t cs').nodeId = t.nodeId := by
  cases t <;> rfl
@[simp] theorem nodeName_setChildItems (t cs') : (setChildItems t cs').nodeName = t.nodeName := by
  cases t <;> rfl
@[simp] theorem nodePath_setChildItems (t cs') : (setChildItems t cs').nodePath = t.nodePath := by
  cases t <;> rfl
@[simp] theorem parentItem_setChildItems (t cs') :
    (setChildItems t cs').parentItem = t.parentItem := by cases t <;> rfl
@[simp] theorem childItems_setChildItems (t cs') : (setChildItems t cs').childItems = cs' := by
  cases t <;> rfl
@[simp] theorem childrenFetched_setChildItems (t cs') :
    (setChildItems t cs').childrenFetched = t.childrenFetched := by cases t <;> rfl

@[simp] theorem nodePath_setChildrenFetched (t f') :
    (setChildrenFetched t f').nodePath = t.nodePath := by cases t <;> rfl
@[simp] theorem childItems_setChildrenFetched (t f') :
    (setChildrenFetched t f').childItems = t.childItems := by cases t <;> rfl
@[simp] theorem childrenFetched_setChildrenFetched (t f') :
    (setChildrenFetched t f').childrenFetched = f' := by cases t <;> rfl
@[simp] theorem parentItem_setChildrenFetched (t f') :
    (setChildrenFetched t f').parentItem = t.parentItem := by cases t <;> rfl

/-- Tree induction: to prove a property of every item it suffices to
prove it for an item whose children all satisfy it. -/
theorem inductionOn {motive : BaseTreeItem → Prop}
    (h : ∀ i n p par f cs, (∀ c ∈ cs, motive c) → motive (.mk i n p par f cs)) :
    ∀ t, motive t
  | .mk i n p par f cs => h i n p par f cs (fun c _ => inductionOn h c)

@[simp] theorem recursiveSetNodePath_mk (i n p par f cs newPath) :
    recursiveSetNodePath (.mk i n p par f cs) newPath
      = .mk i n newPath par f (recursiveSetNodePathL cs newPath) := by
  simp [recursiveSetNodePath]

@[simp] theorem recursiveSetNodePathL_nil (pp) : recursiveSetNodePathL [] pp = [] := by
  simp [recursiveSetNodePathL]

@[simp] theorem recursiveSetNodePathL_cons (c cs pp) :
    recursiveSetNodePathL (c :: cs) pp
      = recursiveSetNodePath c (pp ++ "/" ++ c.nodeName) :: recursiveSetNodePathL cs pp := by
  simp [recursiveSetNodePathL]

@[simp] theorem nodePath_recursiveSetNodePath (t pp) :
    (recursiveSetNodePath t pp).nodePath = pp := by cases t; simp

@[simp] theorem nodeName_recursiveSetNodePath (t pp) :
    (recursiveSetNodePath t pp).nodeName = t.nodeName := by cases t; simp

@[simp] theorem nodeId_recursiveSetNodePath (t pp) :
    (recursiveSetNodePath t pp).nodeId = t.nodeId := by cases t; simp

@[simp] theorem parentItem_recursiveSetNodePath (t pp) :
    (recursiveSetNodePath t pp).parentItem = t.parentItem := by cases t; simp

@[simp] theorem childrenFetched_recursiveSetNodePath (t pp) :
    (recursiveSetNodePath t pp).childrenFetched = t.childrenFetched := by cases t; simp

@[simp] theorem childItems_recursiveSetNodePath (t pp) :
    (recursiveSetNodePath t pp).childItems = recursiveSetNodePathL t.childItems pp := by
  cases t; simp

@[simp] theorem setParentItem_mk (i n p par f cs np) :
    setParentItem (.mk i n p par f cs) np
      = recursiveSetNodePath (.mk i n p (np.map Prod.fst) f cs)
          (constructNodePath (np.map Prod.snd) n) := by
  simp [setParentItem]

@[simp] theorem nodePath_setParentItem (t np) :
    (setParentItem t np).nodePath = constructNodePath (np.map Prod.snd) t.nodeName := by
  cases t; simp

@[simp] theorem parentItem_setParentItem (t np) :
    (setParentItem t np).parentItem = np.map Prod.fst := by cases t; simp

@[simp] theorem nodeName_setParentItem (t np) :
    (setParentItem t np).nodeName = t.nodeName := by cases t; simp

@[simp] theorem nodeId_setParentItem (t np) :
    (setParentItem t np).nodeId = t.nodeId := by cases t; simp

@[simp] theorem finalize_mk (i n p par f cs) :
    finalize (.mk i n p par f cs) = finalizeL cs ++ [i] := by
  simp [finalize]

@[simp] theorem finalizeL_nil : finalizeL [] = [] := by simp [finalizeL]

@[simp] theorem finalizeL_cons (c cs) :
    finalizeL (c :: cs) = finalize c ++ finalizeL cs := by simp [finalizeL]

theorem mem_split_finalizeL {c : BaseTreeItem} {cs : List BaseTreeItem} (h : c ∈ cs) :
    ∃ A B, finalizeL cs = A ++ finalize c ++ B := by
  induction cs with
  | nil => cases h
  | cons x xs ih =>
      rcases List.mem_cons.mp h with hx | hx
      · exact ⟨[], finalizeL xs, by simp [hx]⟩
      · obtain ⟨A, B, hAB⟩ := ih hx
        exact ⟨finalize x ++ A, B, by simp [hAB]⟩

theorem subNode_finalize_infix {c d : BaseTreeItem} (h : SubNode c d) :
    ∃ X Y, finalize c = X ++ finalize d ++ Y := by
  induction h with
  | refl t => exact ⟨[], [], by simp⟩
  | @child t ch d hm _ ih =>
      obtain ⟨X, Y, hXY⟩ := ih
      obtain ⟨i, n, p, par, f, cs⟩ := t
      obtain ⟨A, B, hAB⟩ := mem_split_finalizeL (by simpa using hm)
      refine ⟨A ++ X, Y ++ B ++ [i], ?_⟩
      simp [hAB, hXY]

theorem self_mem_finalize (t : BaseTreeItem) : t.nodeId ∈ finalize t := by
  cases t; simp

theorem strictBelow_mem_finalizeL {d e : BaseTreeItem} (h : StrictBelow d e) :
    e.nodeId ∈ finalizeL d.childItems := by
  obtain ⟨m, hm, hsub⟩ := h
  obtain ⟨A, B, hAB⟩ := mem_split_finalizeL hm
  obtain ⟨X, Y, hXY⟩ := subNode_finalize_infix hsub
  rw [hAB, hXY]
  have := self_mem_finalize e
  simp_all

/-- The finalization trace of a subtree is bottom-up: every node of the
subtree occurs in it, after all of its own strict descendants. -/
theorem finalize_postorder {c d : BaseTreeItem} (h : SubNode c d) :
    ∃ X Y, finalize c = X ++ d.nodeId :: Y ∧ ∀ e, StrictBelow d e → e.nodeId ∈ X := by
  obtain ⟨X, Y, hXY⟩ := subNode_finalize_infix h
  obtain ⟨i, n, p, par, f, cs⟩ := d
  refine ⟨X ++ finalizeL cs, Y, ?_, ?_⟩
  · simp only [finalize_mk] at hXY
    simp [hXY]
  · intro e he
    have := strictBelow_mem_finalizeL he
    simp_all

/-! ### Invariant characterizations -/

@[simp] theorem pathsOkB_mk (i n p par f cs) :
    pathsOkB (.mk i n p par f cs) = pathsOkL p cs := by simp [pathsOkB]

@[simp] theorem pathsOkL_nil (pp) : pathsOkL pp [] = true := by simp [pathsOkL]

@[simp] theorem pathsOkL_cons (pp c cs) :
    pathsOkL pp (c :: cs)
      = ((c.nodePath == pp ++ "/" ++ c.nodeName) && pathsOkB c && pathsOkL pp cs) := by
  simp [pathsOkL]

theorem pathsOkL_iff (pp : String) (cs : List BaseTreeItem) :
    pathsOkL pp cs = true
      ↔ ∀ c ∈ cs, c.nodePath = pp ++ "/" ++ c.nodeName ∧ pathsOkB c = true := by
  induction cs with
  | nil => simp
  | cons x xs ih => simp [ih]

theorem pathsOkB_iff (t : BaseTreeItem) :
    pathsOkB t = true
      ↔ ∀ c ∈ t.childItems, c.nodePath = t.nodePath ++ "/" ++ c.nodeName ∧ pathsOkB c = true := by
  obtain ⟨i, n, p, par, f, cs⟩ := t
  simp [pathsOkL_iff]

theorem recursiveSetNodePathL_eq_map (cs : List BaseTreeItem) (pp : String) :
    recursiveSetNodePathL cs pp
      = cs.map (fun c => recursiveSetNodePath c (pp ++ "/" ++ c.nodeName)) := by
  induction cs with
  | nil => simp
  | cons x xs ih => simp [ih]

/-- `_recursiveSetNodePath` establishes path consistency for the whole
subtree it touches, whatever state it starts from. -/
theorem pathsOkB_recursiveSetNodePath (t : BaseTreeItem) :
    ∀ pp, pathsOkB (recursiveSetNodePath t pp) = true := by
  induction t using inductionOn with
  | h i n p par f cs ih =>
      intro pp
      rw [recursiveSetNodePath_mk, pathsOkB_mk, pathsOkL_iff]
      intro c' hc'
      rw [recursiveSetNodePathL_eq_map] at hc'
      obtain ⟨c, hc, rfl⟩ := List.mem_map.mp hc'
      exact ⟨by simp, ih c hc _⟩

theorem validNamesL_iff (cs : List BaseTreeItem) :
    validNamesL cs = true
      ↔ ∀ c ∈ cs, c.nodeName ≠ "" ∧ containsSlash c.nodeName = false ∧ validNamesB c = true := by
  induction cs with
  | nil => simp [validNamesL]
  | cons x xs ih => simp [validNamesL, ih]; tauto

theorem validNamesB_iff (t : BaseTreeItem) :
    validNamesB t = true
      ↔ ∀ c ∈ t.childItems,
          c.nodeName ≠ "" ∧ containsSlash c.nodeName = false ∧ validNamesB c = true := by
  obtain ⟨i, n, p, par, f, cs⟩ := t
  rw [validNamesB]
  exact validNamesL_iff cs

theorem uniqSibL_iff (cs : List BaseTreeItem) :
    uniqSibL cs = true ↔ ∀ c ∈ cs, uniqSibB c = true := by
  induction cs with
  | nil => simp [uniqSibL]
  | cons x xs ih => simp [uniqSibL, ih]

theorem uniqSibB_iff (t : BaseTreeItem) :
    uniqSibB t = true
      ↔ nodupNamesB (t.childItems.map nodeName) = true ∧
          ∀ c ∈ t.childItems, uniqSibB c = true := by
  obtain ⟨i, n, p, par, f, cs⟩ := t
  rw [uniqSibB]
  simp [uniqSibL_iff]

theorem pathsOkB_setParentItem (t : BaseTreeItem) (np : Option (Nat × String)) :
    pathsOkB (setParentItem t np) = true := by
  obtain ⟨i, n, p, par, f, cs⟩ := t
  rw [setParentItem_mk]
  exact pathsOkB_recursiveSetNodePath _ _

/-- `pathsOkB` holds of every node of a consistent subtree. -/
theorem pathsOkB_subNode {t d : BaseTreeItem} (hok : pathsOkB t = true)
    (h : SubNode t d) : pathsOkB d = true := by
  induction h with
  | refl t => exact hok
  | @child t c d hm _ ih => exact ih (((pathsOkB_iff t).mp hok c hm).2)

/-! ### Structural operations preserve path consistency -/

theorem insertChild_spec (t child : BaseTreeItem) (pos : Option Int) (t' c' : BaseTreeItem)
    (h : insertChild t child pos = .ok (t', c')) :
    t'.nodeId = t.nodeId ∧ t'.nodeName = t.nodeName ∧ t'.nodePath = t.nodePath ∧
      t'.parentItem = t.parentItem ∧
      c' = setParentItem child (some (t.nodeId, t.nodePath)) ∧
      (pathsOkB t = true → pathsOkB t' = true) := by
  simp only [insertChild] at h
  split at h
  · cases h
  · split at h
    · cases h
    · rename_i hrange hpar
      simp only [Except.ok.injEq, Prod.mk.injEq] at h
      obtain ⟨rfl, rfl⟩ := h
      refine ⟨by simp, by simp, by simp, by simp, rfl, ?_⟩
      intro hok
      rw [pathsOkB_iff]
      intro b hb
      simp only [childItems_setChildItems] at hb
      have hle : ((pos.getD (t.nChildren : Int)).toNat) ≤ t.childItems.length := by
        unfold nChildren at hrange ⊢
        omega
      rcases (List.mem_insertIdx hle).mp hb with hbc | hbin
      · subst hbc
        refine ⟨by simp [constructNodePath], pathsOkB_setParentItem _ _⟩
      · simpa using (pathsOkB_iff t).mp hok b hbin

theorem insertFreshAt_spec :
    ∀ (addr : List Nat) (t : BaseTreeItem) (newId : Nat) (name : String) (pos : Option Int)
      (t' c' : BaseTreeItem),
      insertFreshAt t addr newId name pos = .ok (t', c') →
      t'.nodeId = t.nodeId ∧ t'.nodeName = t.nodeName ∧ t'.nodePath = t.nodePath ∧
        t'.parentItem = t.parentItem ∧
        (pathsOkB t = true → pathsOkB t' = true) := by
  intro addr
  induction addr with
  | nil =>
      intro t newId name pos t' c' h
      simp only [insertFreshAt, bind, Except.bind] at h
      by_cases hn : name = ""
      · simp [BaseTreeItem.init, hn] at h
      · simp only [BaseTreeItem.init, hn, if_false] at h
        obtain ⟨h1, h2, h3, h4, -, h6⟩ := insertChild_spec t _ pos t' c' h
        exact ⟨h1, h2, h3, h4, h6⟩
  | cons i rest ih =>
      intro t newId name pos t' c' h
      simp only [insertFreshAt] at h
      rcases hget : t.childItems[i]? with - | c
      · rw [hget] at h; cases h
      · rw [hget] at h
        simp only [bind, Except.bind] at h
        rcases hrec : insertFreshAt c rest newId name pos with e | r
        · rw [hrec] at h; cases h
        · rw [hrec] at h
          simp only [Except.ok.injEq, Prod.mk.injEq] at h
          obtain ⟨rfl, -⟩ := h
          obtain ⟨h1, h2, h3, h4, h5⟩ := ih c newId name pos r.1 r.2 (by rw [hrec])
          refine ⟨by simp, by simp, by simp, by simp, ?_⟩
          intro hok
          rw [pathsOkB_iff]
          intro b hb
          simp only [childItems_setChildItems] at hb
          have hc : c ∈ t.childItems := List.getElem?_mem hget
          rcases List.mem_or_eq_of_mem_set hb with hbin | hbr
          · simpa using (pathsOkB_iff t).mp hok b hbin
          · subst hbr
            have hcons := (pathsOkB_iff t).mp hok c hc
            refine ⟨by simp [h2, h3, hcons.1], h5 hcons.2⟩

theorem renameAt_spec :
    ∀ (addr : List Nat) (t : BaseTreeItem) (pp : Option String) (newName : String)
      (t' : BaseTreeItem),
      renameAt t pp addr newName = .ok t' →
      t'.nodeId = t.nodeId ∧ t'.parentItem = t.parentItem ∧
        t'.nodeName = (if addr = [] then newName else t.nodeName) ∧
        t'.nodePath = (if addr = [] then constructNodePath pp newName else t.nodePath) ∧
        (pathsOkB t = true → pathsOkB t' = true) := by
  intro addr
  induction addr with
  | nil =>
      intro t pp newName t' h
      obtain ⟨i, n, p, par, f, cs⟩ := t
      simp only [renameAt, setNodeName] at h
      split at h
      · cases h
      · simp only [Except.ok.injEq] at h
        subst h
        refine ⟨by simp, by simp, by simp, by simp, ?_⟩
        intro _hok
        exact pathsOkB_recursiveSetNodePath _ _
  | cons i rest ih =>
      intro t pp newName t' h
      simp only [renameAt] at h
      rcases hget : t.childItems[i]? with - | c
      · rw [hget] at h; cases h
      · rw [hget] at h
        simp only [bind, Except.bind] at h
        rcases hrec : renameAt c (some t.nodePath) rest newName with e | c'
        · rw [hrec] at h; cases h
        · rw [hrec] at h
          simp only [Except.ok.injEq] at h
          subst h
          obtain ⟨h1, h2, h3, h4, h5⟩ := ih c (some t.nodePath) newName c' hrec
          refine ⟨by simp, by simp, by simp, by simp, ?_⟩
          intro hok
          rw [pathsOkB_iff]
          intro b hb
          simp only [childItems_setChildItems] at hb
          have hc : c ∈ t.childItems := List.getElem?_mem hget
          rcases List.mem_or_eq_of_mem_set hb with hbin | hbr
          · simpa using (pathsOkB_iff t).mp hok b hbin
          · subst hbr
            have hcons := (pathsOkB_iff t).mp hok c hc
            by_cases hrest : rest = []
            · subst hrest
              simp only [if_pos rfl] at h3 h4
              refine ⟨?_, h5 hcons.2⟩
              simp [h3, h4, constructNodePath]
            · simp only [if_neg hrest] at h3 h4
              refine ⟨?_, h5 hcons.2⟩
              simp [h3, h4, hcons.1]

theorem extractAt_spec :
    ∀ (addr : List Nat) (t : BaseTreeItem) (t' c : BaseTreeItem),
      extractAt t addr = .ok (t', c) →
      t'.nodeId = t.nodeId ∧ t'.nodeName = t.nodeName ∧ t'.nodePath = t.nodePath ∧
        t'.parentItem = t.parentItem ∧
        (pathsOkB t = true → pathsOkB t' = true ∧ pathsOkB c = true) := by
  intro addr
  induction addr with
  | nil => intro t t' c h; cases h
  | cons i rest ih =>
      intro t t' c h
      rcases hr : rest with - | ⟨j, rest'⟩
      · subst hr
        simp only [extractAt] at h
        rcases hget : t.childItems[i]? with - | c0
        · rw [hget] at h; cases h
        · rw [hget] at h
          simp only [Except.ok.injEq, Prod.mk.injEq] at h
          obtain ⟨rfl, rfl⟩ := h
          refine ⟨by simp, by simp, by simp, by simp, ?_⟩
          intro hok
          constructor
          · rw [pathsOkB_iff]
            intro b hb
            simp only [childItems_setChildItems] at hb
            simpa using (pathsOkB_iff t).mp hok b (List.mem_of_mem_eraseIdx hb)
          · exact ((pathsOkB_iff t).mp hok _ (List.getElem?_mem hget)).2
      · subst hr
        simp only [extractAt] at h
        rcases hget : t.childItems[i]? with - | c0
        · rw [hget] at h; cases h
        · rw [hget] at h
          simp only [bind, Except.bind] at h
          rcases hrec : extractAt c0 (j :: rest') with e | r
          · rw [hrec] at h; cases h
          · rw [hrec] at h
            simp only [Except.ok.injEq, Prod.mk.injEq] at h
            obtain ⟨rfl, rfl⟩ := h
            obtain ⟨h1, h2, h3, h4, h5⟩ := ih c0 r.1 r.2 hrec
            refine ⟨by simp, by simp, by simp, by simp, ?_⟩
            intro hok
            have hc0 : c0 ∈ t.childItems := List.getElem?_mem hget
            have hcons := (pathsOkB_iff t).mp hok c0 hc0
            refine ⟨?_, (h5 hcons.2).2⟩
            rw [pathsOkB_iff]
            intro b hb
            simp only [childItems_setChildItems] at hb
            rcases List.mem_or_eq_of_mem_set hb with hbin | hbr
            · simpa using (pathsOkB_iff t).mp hok b hbin
            · subst hbr
              exact ⟨by simp [h2, h3, hcons.1], (h5 hcons.2).1⟩

theorem attachAt_spec :
    ∀ (addr : List Nat) (t : BaseTreeItem) (pos : Nat) (c : BaseTreeItem) (t' : BaseTreeItem),
      attachAt t addr pos c = .ok t' →
      t'.nodeId = t.nodeId ∧ t'.nodeName = t.nodeName ∧ t'.nodePath = t.nodePath ∧
        t'.parentItem = t.parentItem ∧
        (pathsOkB t = true → pathsOkB t' = true) := by
  intro addr
  induction addr with
  | nil =>
      intro t pos c t' h
      simp only [attachAt, Except.ok.injEq] at h
      subst h
      refine ⟨by simp, by simp, by simp, by simp, ?_⟩
      intro hok
      rw [pathsOkB_iff]
      intro b hb
      simp only [childItems_setChildItems] at hb
      have hle : min pos t.childItems.length ≤ t.childItems.length := Nat.min_le_right _ _
      rcases (List.mem_insertIdx hle).mp hb with hbc | hbin
      · subst hbc
        refine ⟨by simp [constructNodePath], pathsOkB_setParentItem _ _⟩
      · simpa using (pathsOkB_iff t).mp hok b hbin
  | cons i rest ih =>
      intro t pos c t' h
      simp only [attachAt] at h
      rcases hget : t.childItems[i]? with - | ch
      · rw [hget] at h; cases h
      · rw [hget] at h
        simp only [bind, Except.bind] at h
        rcases hrec : attachAt ch rest pos c with e | ch'
        · rw [hrec] at h; cases h
        · rw [hrec] at h
          simp only [Except.ok.injEq] at h
          subst h
          obtain ⟨h1, h2, h3, h4, h5⟩ := ih ch pos c ch' hrec
          refine ⟨by simp, by simp, by simp, by simp, ?_⟩
          intro hok
          rw [pathsOkB_iff]
          intro b hb
          simp only [childItems_setChildItems] at hb
          have hch : ch ∈ t.childItems := List.getElem?_mem hget
          have hcons := (pathsOkB_iff t).mp hok ch hch
          rcases List.mem_or_eq_of_mem_set hb with hbin | hbr
          · simpa using (pathsOkB_iff t).mp hok b hbin
          · subst hbr
            exact ⟨by simp [h2, h3, hcons.1], h5 hcons.2⟩

/-- Every store mutation preserves the root invariant: the root stays
parentless with the empty cached path, and path consistency holds
everywhere. -/
theorem applyOp_rootInv (t : BaseTreeItem) (op : TreeOp)
    (hpar : t.parentItem = none) (hpath : t.nodePath = "") (hok : pathsOkB t = true) :
    (applyOp t op).parentItem = none ∧ (applyOp t op).nodePath = "" ∧
      pathsOkB (applyOp t op) = true := by
  cases op with
  | insertOp addr newId name pos =>
      simp only [applyOp]
      rcases hres : insertFreshAt t addr newId name pos with e | r
      · exact ⟨hpar, hpath, hok⟩
      · obtain ⟨-, -, h3, h4, h5⟩ := insertFreshAt_spec addr t newId name pos r.1 r.2 hres
        exact ⟨h4.trans hpar, h3.trans hpath, h5 hok⟩
  | renameOp addr newName =>
      simp only [applyOp]
      rcases hres : renameAt t none addr newName with e | t'
      · exact ⟨hpar, hpath, hok⟩
      · obtain ⟨-, h2, -, h4, h5⟩ := renameAt_spec addr t none newName t' hres
        refine ⟨h2.trans hpar, ?_, h5 hok⟩
        rcases haddr : addr with - | ⟨i, rest⟩
        · subst haddr
          simpa [constructNodePath] using h4
        · subst haddr
          simp only [reduceCtorEq, if_false] at h4
          exact h4.trans hpath
  | reparentOp src dst pos =>
      simp only [applyOp]
      split
      · rename_i t' hres
        simp only [bind, Except.bind] at hres
        rcases hext : extractAt t src with e | r
        · rw [hext] at hres; cases hres
        · rw [hext] at hres
          obtain ⟨-, -, e3, e4, e5⟩ := extractAt_spec src t r.1 r.2 hext
          obtain ⟨-, -, a3, a4, a5⟩ := attachAt_spec dst r.1 pos r.2 t' hres
          exact ⟨a4.trans (e4.trans hpar), a3.trans (e3.trans hpath), a5 (e5 hok).1⟩
      · exact ⟨hpar, hpath, hok⟩

/-- A whole sequence of store mutations preserves the root invariant. -/
theorem applyOps_rootInv (ops : List TreeOp) :
    ∀ (t : BaseTreeItem),
      t.parentItem = none → t.nodePath = "" → pathsOkB t = true →
      (applyOps t ops).parentItem = none ∧ (applyOps t ops).nodePath = "" ∧
        pathsOkB (applyOps t ops) = true := by
  induction ops with
  | nil => intro t h1 h2 h3; exact ⟨h1, h2, h3⟩
  | cons op rest ih =>
      intro t h1 h2 h3
      obtain ⟨g1, g2, g3⟩ := applyOp_rootInv t op h1 h2 h3
      simpa [applyOps] using ih (applyOp t op) g1 g2 g3

theorem find?_append_first {α : Type} (p : α → Bool) (pre : List α) (c : α) (post : List α)
    (hpre : ∀ b ∈ pre, p b = false) (hc : p c = true) :
    (pre ++ c :: post).find? p = some c := by
  induction pre with
  | nil => simp [List.find?_cons, hc]
  | cons x xs ih =>
      have hx : p x = false := hpre x (by simp)
      simp only [List.cons_append, List.find?_cons, hx]
      exact ih (fun b hb => hpre b (by simp [hb]))

/-- `childByNodeName` resolves to the first child carrying the name. -/
theorem childByNodeName_first (t : BaseTreeItem) (seg : String) (c : BaseTreeItem)
    (pre post : List BaseTreeItem) (hns : containsSlash seg = false)
    (hsplit : t.childItems = pre ++ c :: post) (hname : c.nodeName = seg)
    (hpre : ∀ b ∈ pre, b.nodeName ≠ seg) :
    childByNodeName t seg = .ok c := by
  simp only [childByNodeName, hns, Bool.false_eq_true, if_false, hsplit]
  rw [find?_append_first _ _ _ _ (fun b hb => by simpa using hpre b hb) (by simpa using hname)]

/-- `childByNodeName` fails with `NotFound` when no child carries the name. -/
theorem childByNodeName_none (t : BaseTreeItem) (seg : String)
    (hns : containsSlash seg = false)
    (h : ∀ b ∈ t.childItems, b.nodeName ≠ seg) :
    childByNodeName t seg = .error .notFound := by
  simp only [childByNodeName, hns, Bool.false_eq_true, if_false]
  rw [List.find?_eq_none.mpr (fun b hb => by simpa using h b hb)]

/-! ### Chains, paths, and path resolution -/

@[simp] theorem joinSegs_nil : joinSegs [] = "" := rfl

@[simp] theorem joinSegs_cons (s rest) : joinSegs (s :: rest) = "/" ++ s ++ joinSegs rest := by
  simp [joinSegs]

/-- In a path-consistent subtree, the cached path of a node reached by
a chain of names is the start node's path followed by "/name" for each
step. -/
theorem chain_path {t d : BaseTreeItem} {segs : List String}
    (hok : pathsOkB t = true) (h : Chain t segs d) :
    d.nodePath = t.nodePath ++ joinSegs segs := by
  induction h with
  | nil t => simp [String.append_empty]
  | @cons t c d segs hm hch ih =>
      have hc := (pathsOkB_iff t).mp hok c hm
      have := ih hc.2
      rw [this, hc.1]
      simp [String.append_assoc]

/-- The names along a chain in a valid-names subtree are non-empty and
slash-free. -/
theorem chain_segs_valid {t d : BaseTreeItem} {segs : List String}
    (hv : validNamesB t = true) (h : Chain t segs d) :
    ∀ x ∈ segs, x ≠ "" ∧ containsSlash x = false := by
  induction h with
  | nil t => simp
  | @cons t c d segs hm hch ih =>
      have hc := (validNamesB_iff t).mp hv c hm
      intro x hx
      rcases List.mem_cons.mp hx with hx | hx
      · subst hx
        exact ⟨hc.1, hc.2.1⟩
      · exact ih hc.2.2 x hx

/-- With pairwise-distinct sibling names, the first child carrying a
member's name is that member. -/
theorem find?_name_of_nodup {c : BaseTreeItem} {cs : List BaseTreeItem}
    (hmem : c ∈ cs) (hnodup : nodupNamesB (cs.map nodeName) = true) :
    cs.find? (fun b => b.nodeName == c.nodeName) = some c := by
  induction cs with
  | nil => cases hmem
  | cons x xs ih =>
      simp only [List.map_cons, nodupNamesB, Bool.and_eq_true, Bool.not_eq_true'] at hnodup
      rcases List.mem_cons.mp hmem with hx | hx
      · subst hx
        simp [List.find?_cons]
      · have hne : x.nodeName ≠ c.nodeName := by
          intro hEq
          have hmem2 : x.nodeName ∈ xs.map nodeName := by
            rw [hEq]
            exact List.mem_map_of_mem _ hx
          have helem := List.elem_eq_true_of_mem hmem2
          simp only [List.contains] at hnodup
          rw [helem] at hnodup
          exact absurd hnodup.1 (by decide)
        rw [List.find?_cons_of_neg _ (by simpa using hne)]
        exact ih hx hnodup.2

/-- In a subtree with valid, sibling-unique names, a chain of names is
resolved by `_auxGetByPath` to the node it leads to. -/
theorem chain_resolve {t d : BaseTreeItem} {segs : List String}
    (huniq : uniqSibB t = true) (hv : validNamesB t = true) (h : Chain t segs d) :
    auxGetByPath segs t = .ok d := by
  induction h with
  | nil t => simp [auxGetByPath]
  | @cons t c d segs hm hch ih =>
      have hcv := (validNamesB_iff t).mp hv c hm
      have hcu := (uniqSibB_iff t).mp huniq
      rw [auxGetByPath, if_neg hcv.1]
      have hfind : childByNodeName t c.nodeName = .ok c := by
        rw [childByNodeName, if_neg (by simp [hcv.2.1]), find?_name_of_nodup hm hcu.1]
      rw [hfind]
      exact ih (hcu.2 c hm) hcv.2.2

/-! ### Splitting paths back into segments -/

@[simp] theorem splitSlashAux_nil (acc) : splitSlashAux [] acc = [String.mk acc.reverse] := rfl

theorem splitSlashAux_slash (l acc) :
    splitSlashAux ('/' :: l) acc = String.mk acc.reverse :: splitSlashAux l [] := by
  simp [splitSlashAux]

theorem splitSlashAux_no_slash_append :
    ∀ (l₁ : List Char) (acc l₂ : List Char), (∀ ch ∈ l₁, ch ≠ '/') →
      splitSlashAux (l₁ ++ l₂) acc = splitSlashAux l₂ (l₁.reverse ++ acc) := by
  intro l₁
  induction l₁ with
  | nil => intro acc l₂ h; simp
  | cons c cs ih =>
      intro acc l₂ h
      have hc : ¬ c = '/' := h c (by simp)
      simp only [List.cons_append, splitSlashAux, if_neg hc, List.append_eq]
      rw [ih (c :: acc) l₂ (fun ch hch => h ch (by simp [hch]))]
      simp

theorem no_slash_chars {s : String} (h : containsSlash s = false) :
    ∀ ch ∈ s.data, ch ≠ '/' := by
  intro ch hch hEq
  subst hEq
  have := List.elem_eq_true_of_mem hch
  simp only [containsSlash, List.contains] at h
  rw [this] at h
  cases h

theorem splitSlash_no_slash {s : String} (h : containsSlash s = false) :
    splitSlash s = [s] := by
  have : splitSlash s = splitSlashAux (s.data ++ []) [] := by
    simp [splitSlash]
  rw [this, splitSlashAux_no_slash_append s.data [] [] (no_slash_chars h)]
  simp

/-- Splitting a slash-free head followed by "/name" blocks recovers the
segments: the inverse direction of path construction. -/
theorem splitSlash_join :
    ∀ (segs : List String) (s : String), containsSlash s = false →
      (∀ x ∈ segs, containsSlash x = false) →
      splitSlash (s ++ joinSegs segs) = s :: segs := by
  intro segs
  induction segs with
  | nil =>
      intro s hs _
      rw [joinSegs_nil, String.append_empty]
      exact splitSlash_no_slash hs
  | cons x rest ih =>
      intro s hs hall
      have hdata : (s ++ joinSegs (x :: rest)).data
          = s.data ++ ('/' :: (x ++ joinSegs rest).data) := by
        simp [String.append_assoc]
      rw [splitSlash, hdata, splitSlashAux_no_slash_append s.data [] _ (no_slash_chars hs),
        splitSlashAux_slash]
      rw [show splitSlashAux (x ++ joinSegs rest).data [] = splitSlash (x ++ joinSegs rest)
        from rfl]
      rw [ih x (hall x (by simp)) (fun y hy => hall y (by simp [hy]))]
      simp

theorem startsWithSlash_append_false {s : String} (y : String)
    (hne : s ≠ "") (hns : containsSlash s = false) :
    startsWithSlash (s ++ y) = false := by
  rcases hd : s.data with - | ⟨c, cs⟩
  · exact absurd (String.ext hd) hne
  · have hc : c ≠ '/' := no_slash_chars hns c (by simp [hd])
    have : (s ++ y).data = c :: (cs ++ y.data) := by
      have : (s ++ y).data = s.data ++ y.data := rfl
      rw [this, hd]
      simp
    simp [startsWithSlash, this, hc]

theorem append_ne_empty_left {s : String} (y : String) (hne : s ≠ "") : s ++ y ≠ "" := by
  intro hEq
  apply hne
  apply String.ext
  have h1 : (s ++ y).data = s.data ++ y.data := rfl
  have h2 : (s ++ y).data = [] := by rw [hEq]
  rw [h1] at h2
  exact List.append_eq_nil.mp h2 |>.1 ▸ rfl

/-- `insertIdx` at an in-range position splits the list around the new
element. -/
theorem insertIdx_eq_take_append {α : Type} (l : List α) (k : Nat) (a : α)
    (h : k ≤ l.length) : l.insertIdx k a = l.take k ++ a :: l.drop k := by
  induction l generalizing k with
  | nil =>
      simp only [List.length_nil, Nat.le_zero] at h
      subst h
      simp
  | cons x xs ih =>
      cases k with
      | zero => simp
      | succ k =>
          simp only [List.insertIdx_succ_cons, List.take_succ_cons, List.drop_succ_cons,
            List.cons_append]
          rw [ih k (by simpa using h)]

end BaseTreeItem

/-! ## Claims -/

namespace ArgosClaims

open BaseTreeItem

/-- C10: a freshly constructed node (before insertion under a parent)
has the empty string as its cached path, whatever its name: the
constructor computes `_constructNodePath()` with `_parentItem = None`. -/
theorem claim10_fresh_node_path (i : Nat) (n : String) (t : BaseTreeItem)
    (h : BaseTreeItem.init i n = .ok t) : t.nodePath = "" := by
  unfold BaseTreeItem.init at h
  by_cases hn : n = "" <;> simp [hn] at h
  subst h
  rfl

/-- Witness for C10 at the concrete name "abc". -/
theorem claim10_witness :
    (BaseTreeItem.mk 7 "abc" "" none false []).nodePath = "" :=
  claim10_fresh_node_path 7 "abc" _ rfl

/-- C3, counterexample: the claim says creating a node fails when the
name contains a slash, but `BaseTreeItem.__init__` only asserts
non-emptiness, so construction with the name "a/b" succeeds. -/
theorem claim3_counterexample :
    containsSlash "a/b" = true ∧
      BaseTreeItem.init 0 "a/b" = .ok (.mk 0 "a/b" "" none false []) :=
  ⟨rfl, rfl⟩

/-- C3, amended: creation fails with `InvalidArgument` exactly on the
empty name (a slash in the name is not checked by the constructor), and
renaming via the `nodeName` setter fails with `InvalidArgument` exactly
on a slash-containing name (the empty name is not checked there);
otherwise both succeed. -/
theorem claim3_name_validation (i : Nat) (n : String) (t : BaseTreeItem) (pp : Option String) :
    (BaseTreeItem.init i n = .error .invalidArgument ↔ n = "") ∧
    ((∃ t', BaseTreeItem.init i n = .ok t') ↔ ¬ n = "") ∧
    (setNodeName t pp n = .error .invalidArgument ↔ containsSlash n = true) ∧
    ((∃ t', setNodeName t pp n = .ok t') ↔ containsSlash n = false) := by
  obtain ⟨i', n', p', par', f', cs'⟩ := t
  refine ⟨?_, ?_, ?_, ?_⟩
  · by_cases hn : n = "" <;> simp [BaseTreeItem.init, hn]
  · by_cases hn : n = "" <;> simp [BaseTreeItem.init, hn]
  · by_cases hs : containsSlash n = true <;> simp [setNodeName, hs]
  · by_cases hs : containsSlash n = true <;> simp [setNodeName, hs]

/-- C5: when the production step of `fetchChildren` fails on a node in
the unfetched state, the error propagates unchanged and the node is
returned exactly as it was: the flag assignment comes after the
production call, so `childrenFetched` is still false and the child list
is untouched. -/
theorem claim5_fetch_failure_atomic {ε : Type} (t : BaseTreeItem) (e : ε)
    (h : t.childrenFetched = false) :
    AbstractLazyLoadTreeItem.fetchChildren t (.error e) = (t, .error (.inr e)) := by
  simp [AbstractLazyLoadTreeItem.fetchChildren, h]

/-- Witness for C5 on a concrete unfetched node and the error "io". -/
theorem claim5_witness :
    AbstractLazyLoadTreeItem.fetchChildren (BaseTreeItem.mk 5 "lazy" "" none false [])
        (.error "io")
      = (BaseTreeItem.mk 5 "lazy" "" none false [], .error (.inr "io")) :=
  claim5_fetch_failure_atomic _ "io" rfl

/-- C4: the two-state machine of a lazy node.  The constructor starts
the flag at false; `fetchChildren` on an unfetched node runs the
production step, sets only the flag (the produced children are returned,
not inserted); `fetchChildren` on a fetched node fails with
`InvalidState`; `removeAllChildren` resets the flag; and
`canFetchChildren` is true exactly when the flag is false. -/
theorem claim4_lazy_state_machine {ε : Type} (i : Nat) (n : String) (t : BaseTreeItem)
    (cs : List BaseTreeItem) (produce : Except ε (List BaseTreeItem)) :
    (∀ t0, AbstractLazyLoadTreeItem.init i n = .ok t0 → t0.childrenFetched = false) ∧
    (t.childrenFetched = false → produce = .ok cs →
      AbstractLazyLoadTreeItem.fetchChildren t produce = (t.setChildrenFetched true, .ok cs) ∧
      (t.setChildrenFetched true).childItems = t.childItems ∧
      (t.setChildrenFetched true).childrenFetched = true) ∧
    (t.childrenFetched = true →
      AbstractLazyLoadTreeItem.fetchChildren t produce = (t, .error (.inl .invalidState))) ∧
    (AbstractLazyLoadTreeItem.removeAllChildren t).1.childrenFetched = false ∧
    (AbstractLazyLoadTreeItem.canFetchChildren t = true ↔ t.childrenFetched = false) := by
  refine ⟨?_, ?_, ?_, ?_, ?_⟩
  · intro t0 h0
    unfold AbstractLazyLoadTreeItem.init BaseTreeItem.init at h0
    by_cases hn : n = "" <;> simp [hn, Except.map] at h0
    subst h0
    rfl
  · intro hf hp
    subst hp
    simp [AbstractLazyLoadTreeItem.fetchChildren, hf]
  · intro hf
    simp [AbstractLazyLoadTreeItem.fetchChildren, hf]
  · obtain ⟨i', n', p', par', f', cs'⟩ := t
    rfl
  · simp [AbstractLazyLoadTreeItem.canFetchChildren]

/-- Witness for C4: a concrete lazy node driven around the state
machine: fetch from unfetched succeeds and flips the flag, a second
fetch fails with `InvalidState`, and `removeAllChildren` resets. -/
theorem claim4_witness :
    (BaseTreeItem.mk 5 "lazy" "" none false []).childrenFetched = false ∧
    (AbstractLazyLoadTreeItem.fetchChildren (ε := Unit)
        (BaseTreeItem.mk 5 "lazy" "" none false [])
        (.ok [BaseTreeItem.mk 6 "kid" "" none false []])
      = (BaseTreeItem.mk 5 "lazy" "" none true [],
         .ok [BaseTreeItem.mk 6 "kid" "" none false []])) ∧
    (AbstractLazyLoadTreeItem.fetchChildren (ε := Unit)
        (BaseTreeItem.mk 5 "lazy" "" none true []) (.ok [])
      = (BaseTreeItem.mk 5 "lazy" "" none true [], .error (.inl .invalidState))) ∧
    (AbstractLazyLoadTreeItem.removeAllChildren
        (BaseTreeItem.mk 5 "lazy" "" none true [])).1.childrenFetched = false := by
  refine ⟨?_, ?_, ?_, ?_⟩
  · exact (claim4_lazy_state_machine (ε := Unit) 5 "lazy"
      (BaseTreeItem.mk 5 "lazy" "" none false []) [] (.ok [])).1 _ rfl
  · exact ((claim4_lazy_state_machine (ε := Unit) 5 "lazy"
      (BaseTreeItem.mk 5 "lazy" "" none false [])
      [BaseTreeItem.mk 6 "kid" "" none false []]
      (.ok [BaseTreeItem.mk 6 "kid" "" none false []])).2.1 rfl rfl).1
  · exact (claim4_lazy_state_machine (ε := Unit) 5 "lazy"
      (BaseTreeItem.mk 5 "lazy" "" none true []) [] (.ok [])).2.2.1 rfl
  · exact (claim4_lazy_state_machine (ε := Unit) 5 "lazy"
      (BaseTreeItem.mk 5 "lazy" "" none true []) [] (.ok [])).2.2.2.1

/-- C8: `insertChild` rejects an out-of-range position with
`IndexOutOfRange` and an already-parented child with `InvalidState`
(the position assert runs first in the source); on success it sets the
child's parent to the node, recomputes the child's path under the new
parent, places the child at exactly the requested index — the earlier
children are kept, the later siblings shift right — and returns the
inserted child. -/
theorem claim8_insertChild (t c : BaseTreeItem) (q : Int) :
    ((q < 0 ∨ (t.nChildren : Int) < q) → insertChild t c (some q) = .error .indexOutOfRange) ∧
    (0 ≤ q → q ≤ (t.nChildren : Int) → c.parentItem.isSome →
      insertChild t c (some q) = .error .invalidState) ∧
    (0 ≤ q → q ≤ (t.nChildren : Int) → c.parentItem = none →
      ∃ c', insertChild t c (some q)
            = .ok (t.setChildItems (t.childItems.take q.toNat ++ c' :: t.childItems.drop q.toNat),
                   c') ∧
        c'.parentItem = some t.nodeId ∧
        c'.nodeName = c.nodeName ∧
        c'.nodePath = t.nodePath ++ "/" ++ c.nodeName) := by
  refine ⟨?_, ?_, ?_⟩
  · intro h
    have h' : q < 0 ∨ (t.childItems.length : Int) < q := h
    simp only [insertChild, Option.getD_some]
    rw [if_pos (by omega)]
  · intro h0 h1 hpar
    simp only [insertChild, Option.getD_some]
    rw [if_neg (by unfold nChildren at h1; omega), if_pos hpar]
  · intro h0 h1 hpar
    refine ⟨setParentItem c (some (t.nodeId, t.nodePath)), ?_, by simp, by simp,
      by simp [constructNodePath]⟩
    simp only [insertChild, Option.getD_some]
    rw [if_neg (by unfold nChildren at h1; omega), if_neg (by simp [hpar])]
    rw [insertIdx_eq_take_append _ _ _ (by unfold nChildren at h1; omega)]

/-- Witness for C8: the spec scenario — inserting "x" at position 0 and
then "y" at position 0 under a fresh root yields child order
`["y", "x"]` — together with the two error cases at concrete inputs. -/
theorem claim8_witness :
    (∃ c', insertChild (BaseTreeItem.mk 0 "root" "" none false
              [BaseTreeItem.mk 1 "x" "/x" (some 0) false []])
            (BaseTreeItem.mk 2 "y" "" none false []) (some 0)
        = .ok (BaseTreeItem.mk 0 "root" "" none false
                 [c', BaseTreeItem.mk 1 "x" "/x" (some 0) false []], c') ∧
        c'.parentItem = some 0 ∧ c'.nodeName = "y" ∧ c'.nodePath = "/y") ∧
    insertChild (BaseTreeItem.mk 0 "root" "" none false [])
        (BaseTreeItem.mk 2 "y" "" none false []) (some 3) = .error .indexOutOfRange ∧
    insertChild (BaseTreeItem.mk 0 "root" "" none false [])
        (BaseTreeItem.mk 1 "x" "/x" (some 0) false []) (some 0) = .error .invalidState := by
  refine ⟨?_, ?_, ?_⟩
  · obtain ⟨c', h, h1, h2, h3⟩ := (claim8_insertChild
      (BaseTreeItem.mk 0 "root" "" none false [BaseTreeItem.mk 1 "x" "/x" (some 0) false []])
      (BaseTreeItem.mk 2 "y" "" none false []) 0).2.2 (by omega) (by norm_num [nChildren]) rfl
    exact ⟨c', h, h1, h2, by simpa using h3⟩
  · exact (claim8_insertChild (BaseTreeItem.mk 0 "root" "" none false [])
      (BaseTreeItem.mk 2 "y" "" none false []) 3).1 (by norm_num [nChildren])
  · exact (claim8_insertChild (BaseTreeItem.mk 0 "root" "" none false [])
      (BaseTreeItem.mk 1 "x" "/x" (some 0) false []) 0).2.1 (by omega)
      (by norm_num [nChildren]) rfl

/-- C7: `removeChildAt` fails with `IndexOutOfRange` on any position
that is not a valid child index (the assert rejects `q < 0` and
`q > childCount()`, and at `q = childCount()` the list access itself
raises before any mutation); on a valid index the removed subtree is
finalized bottom-up — every node of the subtree appears in the
finalization trace after all of its strict descendants — the child is
detached, and the child count decreases by exactly one. -/
theorem claim7_removeChildAt (t : BaseTreeItem) (q : Int) :
    ((q < 0 ∨ (t.nChildren : Int) ≤ q) → removeChild t q = .error .indexOutOfRange) ∧
    (0 ≤ q → q < (t.nChildren : Int) →
      ∃ c, t.childItems[q.toNat]? = some c ∧
        removeChild t q
          = .ok (t.setChildItems (t.childItems.eraseIdx q.toNat), c, finalize c) ∧
        (t.setChildItems (t.childItems.eraseIdx q.toNat)).nChildren + 1 = t.nChildren ∧
        (∀ d, SubNode c d → ∃ X Y, finalize c = X ++ d.nodeId :: Y ∧
          ∀ e, StrictBelow d e → e.nodeId ∈ X)) := by
  constructor
  · intro h
    unfold nChildren at h
    by_cases hq : q < 0 ∨ (t.childItems.length : Int) < q
    · simp only [removeChild]
      rw [if_pos (by omega)]
    · have hqe : q = t.childItems.length := by omega
      simp only [removeChild]
      rw [if_neg (by omega)]
      have : t.childItems[q.toNat]? = none := by
        apply List.getElem?_eq_none
        omega
      rw [this]
  · intro h0 h1
    unfold nChildren at h1
    have hlt : q.toNat < t.childItems.length := by omega
    refine ⟨t.childItems[q.toNat], by simp [List.getElem?_eq_getElem hlt], ?_, ?_, ?_⟩
    · simp only [removeChild]
      rw [if_neg (by omega), List.getElem?_eq_getElem hlt]
    · have h2 : (t.childItems.eraseIdx q.toNat).length = t.childItems.length - 1 := by
        rw [List.length_eraseIdx]
        simp [hlt]
      simp only [nChildren, childItems_setChildItems, h2]
      omega
    · intro d hsub
      exact finalize_postorder hsub

/-- Witness for C7: removing child 0 (the subtree "a" with grandchild
"b") from a concrete root finalizes bottom-up (trace `[2, 1]`: the
grandchild before its parent) and leaves the root childless; removal
from an empty root fails with `IndexOutOfRange`. -/
theorem claim7_witness :
    removeChild (BaseTreeItem.mk 0 "root" "" none false
        [BaseTreeItem.mk 1 "a" "/a" (some 0) false
          [BaseTreeItem.mk 2 "b" "/a/b" (some 1) false []]]) 0
      = .ok (BaseTreeItem.mk 0 "root" "" none false [],
             BaseTreeItem.mk 1 "a" "/a" (some 0) false
               [BaseTreeItem.mk 2 "b" "/a/b" (some 1) false []],
             [2, 1]) ∧
    removeChild (BaseTreeItem.mk 0 "root" "" none false []) 0
      = .error .indexOutOfRange := by
  constructor
  · obtain ⟨c, hc, heq, -, -⟩ := (claim7_removeChildAt
      (BaseTreeItem.mk 0 "root" "" none false
        [BaseTreeItem.mk 1 "a" "/a" (some 0) false
          [BaseTreeItem.mk 2 "b" "/a/b" (some 1) false []]]) 0).2
      (by omega) (by norm_num [nChildren])
    simp only [childItems_mk, Int.toNat_zero, List.getElem?_cons_zero, Option.some.injEq] at hc
    subst hc
    simpa using heq
  · exact (claim7_removeChildAt (BaseTreeItem.mk 0 "root" "" none false []) 0).1
      (by norm_num [nChildren])

/-- C9: removal is purely structural on the removed object — after
`removeChildAt` (and after either `removeAllChildren`) the removed
child objects are exactly the objects that sat in the child list, so
their `parentItem` back-pointers still hold the former parent's
identity and their cached paths are untouched (neither `finalize`,
`pop`, nor the list reset writes to the removed nodes). -/
theorem claim9_removal_frame (t : BaseTreeItem) (q : Int) (hlink : linkedB t = true) :
    (∀ t' c tr, removeChild t q = .ok (t', c, tr) →
      t.childItems[q.toNat]? = some c ∧ c.parentItem = some t.nodeId) ∧
    ((BaseTreeItem.removeAllChildren t).2.1 = t.childItems ∧
      ∀ c ∈ t.childItems, c.parentItem = some t.nodeId) ∧
    ((AbstractLazyLoadTreeItem.removeAllChildren t).2.1 = t.childItems) := by
  have hchildren : ∀ c ∈ t.childItems, c.parentItem = some t.nodeId := by
    obtain ⟨i, n, p, par, f, cs⟩ := t
    simp only [childItems_mk, nodeId_mk]
    have : linkedL i cs = true := by
      simp only [linkedB] at hlink
      exact hlink
    clear hlink
    induction cs with
    | nil => simp
    | cons x xs ih =>
        simp only [linkedL, Bool.and_eq_true, beq_iff_eq] at this
        intro c hc
        rcases List.mem_cons.mp hc with h | h
        · subst h; exact this.1.1
        · exact ih this.2 c h
  refine ⟨?_, ⟨rfl, hchildren⟩, rfl⟩
  intro t' c tr h
  simp only [removeChild] at h
  split at h
  · cases h
  · split at h
    · cases h
    · rename_i hget
      simp only [Except.ok.injEq, Prod.mk.injEq] at h
      obtain ⟨-, hc, -⟩ := h
      subst hc
      exact ⟨hget, hchildren _ (List.getElem?_mem hget)⟩

/-- Witness for C9: removing child "a" from a concrete linked root
returns the child object with its back-pointer still `some 0` (the
former parent) and its cached path still "/a". -/
theorem claim9_witness :
    ((BaseTreeItem.mk 0 "root" "" none false
        [BaseTreeItem.mk 1 "a" "/a" (some 0) false []]).childItems)[(0 : Int).toNat]?
        = some (BaseTreeItem.mk 1 "a" "/a" (some 0) false []) ∧
      (BaseTreeItem.mk 1 "a" "/a" (some 0) false []).parentItem = some 0 :=
  (claim9_removal_frame
    (BaseTreeItem.mk 0 "root" "" none false [BaseTreeItem.mk 1 "a" "/a" (some 0) false []])
    0 rfl).1
    (BaseTreeItem.mk 0 "root" "" none false [])
    (BaseTreeItem.mk 1 "a" "/a" (some 0) false []) [1] rfl

/-- C6: `findByPath` fails with `InvalidArgument` on a path starting
with '/', fails with `NotFound` on the empty path, and otherwise drives
`_auxGetByPath` over the slash-split segments, where: no segments left
returns the node reached, an empty segment (doubled slash) stays at the
current node, a non-empty segment steps to the first direct child with
exactly that name, and a non-empty segment matching no child fails with
`NotFound`. -/
theorem claim6_findByPath (t : BaseTreeItem) (p : String) :
    (startsWithSlash p = true → findByNodePath t p = .error .invalidArgument) ∧
    (p = "" → findByNodePath t p = .error .notFound) ∧
    (startsWithSlash p = false → p ≠ "" →
      findByNodePath t p = auxGetByPath (splitSlash p) t) ∧
    (∀ item : BaseTreeItem, auxGetByPath [] item = .ok item) ∧
    (∀ (tail : List String) (item : BaseTreeItem),
      auxGetByPath ("" :: tail) item = auxGetByPath tail item) ∧
    (∀ (seg : String) (tail : List String) (item c : BaseTreeItem)
        (pre post : List BaseTreeItem),
      seg ≠ "" → containsSlash seg = false →
      item.childItems = pre ++ c :: post → c.nodeName = seg →
      (∀ b ∈ pre, b.nodeName ≠ seg) →
      auxGetByPath (seg :: tail) item = auxGetByPath tail c) ∧
    (∀ (seg : String) (tail : List String) (item : BaseTreeItem),
      seg ≠ "" → containsSlash seg = false →
      (∀ b ∈ item.childItems, b.nodeName ≠ seg) →
      auxGetByPath (seg :: tail) item = .error .notFound) := by
  refine ⟨?_, ?_, ?_, ?_, ?_, ?_, ?_⟩
  · intro h
    simp [findByNodePath, h]
  · intro h
    subst h
    simp [findByNodePath, startsWithSlash]
  · intro h1 h2
    simp [findByNodePath, h1, h2]
  · intro item
    simp [auxGetByPath]
  · intro tail item
    simp [auxGetByPath]
  · intro seg tail item c pre post hseg hns hsplit hname hpre
    rw [auxGetByPath, if_neg hseg, childByNodeName_first item seg c pre post hns hsplit hname hpre]
  · intro seg tail item hseg hns h
    rw [auxGetByPath, if_neg hseg, childByNodeName_none item seg hns h]

/-- Witness for C6 on a concrete two-level tree: a leading slash is
`InvalidArgument`, the empty path is `NotFound`, "a//b" resolves through
the doubled slash to the grandchild, first-match picks the first of two
same-named children, and a missing name is `NotFound`. -/
theorem claim6_witness :
    findByNodePath (BaseTreeItem.mk 0 "root" "" none false
        [BaseTreeItem.mk 1 "a" "/a" (some 0) false []]) "/a"
      = .error .invalidArgument ∧
    findByNodePath (BaseTreeItem.mk 0 "root" "" none false
        [BaseTreeItem.mk 1 "a" "/a" (some 0) false []]) ""
      = .error .notFound ∧
    auxGetByPath ["a", "", "b"]
        (BaseTreeItem.mk 0 "root" "" none false
          [BaseTreeItem.mk 1 "a" "/a" (some 0) false
            [BaseTreeItem.mk 2 "b" "/a/b" (some 1) false []]])
      = auxGetByPath ["", "b"] (BaseTreeItem.mk 1 "a" "/a" (some 0) false
          [BaseTreeItem.mk 2 "b" "/a/b" (some 1) false []]) ∧
    auxGetByPath ["dup"]
        (BaseTreeItem.mk 0 "root" "" none false
          [BaseTreeItem.mk 1 "dup" "/dup" (some 0) false [],
           BaseTreeItem.mk 2 "dup" "/dup" (some 0) false []])
      = auxGetByPath [] (BaseTreeItem.mk 1 "dup" "/dup" (some 0) false []) ∧
    auxGetByPath ["zz"]
        (BaseTreeItem.mk 0 "root" "" none false
          [BaseTreeItem.mk 1 "a" "/a" (some 0) false []])
      = .error .notFound := by
  refine ⟨?_, ?_, ?_, ?_, ?_⟩
  · exact (claim6_findByPath _ "/a").1 rfl
  · exact (claim6_findByPath _ "").2.1 rfl
  · exact (claim6_findByPath (BaseTreeItem.mk 0 "root" "" none false []) "").2.2.2.2.2.1
      "a" ["", "b"] _ _ []
      [] (by decide) rfl rfl rfl (by simp)
  · exact (claim6_findByPath (BaseTreeItem.mk 0 "root" "" none false []) "").2.2.2.2.2.1
      "dup" [] _ _ []
      [BaseTreeItem.mk 2 "dup" "/dup" (some 0) false []]
      (by decide) rfl rfl rfl (by simp)
  · exact (claim6_findByPath (BaseTreeItem.mk 0 "root" "" none false []) "").2.2.2.2.2.2
      "zz" [] _ (by decide) rfl (by simp)

/-- C1, counterexample: the claim says a node named "a" inserted
directly under the store's root has `path() = "a"`, but
`_constructNodePath` prepends the parent's path AND a slash, and the
root's path is the empty string, so the path is "/a". -/
theorem claim1_counterexample :
    (applyOps (BaseTreeItem.mk 0 "root" "" none false [])
        [TreeOp.insertOp [] 1 "a" none]).childItems.map nodePath = ["/a"] ∧
      ("/a" : String) ≠ "a" :=
  ⟨rfl, by decide⟩

/-- C1, amended: in a store whose root is parentless with the empty
cached path and whose paths are consistent, after ANY sequence of
insert, rename and reparent operations the root's path is still empty,
a node inserted directly under the root has path `"/" + name` (not
`name`), and every node's path equals its parent's path + "/" + its
name. -/
theorem claim1_path_equation (R : BaseTreeItem) (ops : List TreeOp)
    (hpar : R.parentItem = none) (hpath : R.nodePath = "") (hok : pathsOkB R = true) :
    (applyOps R ops).nodePath = "" ∧
    (∀ c ∈ (applyOps R ops).childItems, c.nodePath = "/" ++ c.nodeName) ∧
    (∀ p c, SubNode (applyOps R ops) p → c ∈ p.childItems →
      c.nodePath = p.nodePath ++ "/" ++ c.nodeName) := by
  obtain ⟨g1, g2, g3⟩ := applyOps_rootInv ops R hpar hpath hok
  refine ⟨g2, ?_, ?_⟩
  · intro c hc
    have h := ((pathsOkB_iff _).mp g3 c hc).1
    rw [g2] at h
    simpa [show (("" : String) ++ "/") = "/" from rfl] using h
  · intro p c hsub hc
    exact ((pathsOkB_iff p).mp (pathsOkB_subNode g3 hsub) c hc).1

/-- Witness for C1: inserting "a" under a concrete fresh root leaves
the root's path empty and gives the new child the path "/a". -/
theorem claim1_witness :
    (applyOps (BaseTreeItem.mk 0 "root" "" none false [])
        [TreeOp.insertOp [] 1 "a" none]).nodePath = "" ∧
    (BaseTreeItem.mk 1 "a" "/a" (some 0) false []).nodePath
      = "/" ++ (BaseTreeItem.mk 1 "a" "/a" (some 0) false []).nodeName := by
  have h := claim1_path_equation (BaseTreeItem.mk 0 "root" "" none false [])
    [TreeOp.insertOp [] 1 "a" none] rfl rfl rfl
  refine ⟨h.1, h.2.1 _ ?_⟩
  have he : (applyOps (BaseTreeItem.mk 0 "root" "" none false [])
      [TreeOp.insertOp [] 1 "a" none]).childItems
        = [BaseTreeItem.mk 1 "a" "/a" (some 0) false []] := rfl
  rw [he]
  exact List.mem_singleton.mpr rfl

/-- C2, counterexample: inserting a detached node "a" under a fresh
root succeeds and records the path "/a" for it, but resolving the
literal path string "/a" from the root fails with `InvalidArgument`
(`findByNodePath` asserts the path must not start with a slash), so the
insert/resolve round-trip on the literal path fails. -/
theorem claim2_counterexample :
    insertChild (BaseTreeItem.mk 0 "root" "" none false [])
        (BaseTreeItem.mk 1 "a" "" none false []) none
      = .ok (BaseTreeItem.mk 0 "root" "" none false
               [BaseTreeItem.mk 1 "a" "/a" (some 0) false []],
             BaseTreeItem.mk 1 "a" "/a" (some 0) false []) ∧
    findByNodePath (BaseTreeItem.mk 0 "root" "" none false
        [BaseTreeItem.mk 1 "a" "/a" (some 0) false []]) "/a"
      = .error .invalidArgument :=
  ⟨rfl, rfl⟩

/-- C2, amended: every attached node's path starts with '/', and
`findByNodePath` rejects such paths, so the round-trip holds for the
path with its leading slash removed: in a store with consistent paths
and non-empty, slash-free, sibling-unique names, any node reached from
the root by a non-empty chain has a path of the form "/" ++ rest, and
resolving `rest` from the root returns exactly that node. -/
theorem claim2_insert_resolve_roundtrip (R d : BaseTreeItem) (segs : List String)
    (hpath : R.nodePath = "") (hok : pathsOkB R = true) (huniq : uniqSibB R = true)
    (hvalid : validNamesB R = true) (hchain : Chain R segs d) (hne : segs ≠ []) :
    ∃ rest, d.nodePath = "/" ++ rest ∧ findByNodePath R rest = .ok d := by
  rcases segs with - | ⟨s0, more⟩
  · exact absurd rfl hne
  have hvs := chain_segs_valid hvalid hchain
  have hs0 := hvs s0 (by simp)
  have hmore : ∀ x ∈ more, containsSlash x = false :=
    fun x hx => (hvs x (by simp [hx])).2
  refine ⟨s0 ++ joinSegs more, ?_, ?_⟩
  · have hp := chain_path hok hchain
    rw [hpath] at hp
    rw [hp]
    rw [joinSegs_cons]
    rw [show ("" : String) ++ ("/" ++ s0 ++ joinSegs more) = "/" ++ s0 ++ joinSegs more from rfl]
    rw [String.append_assoc]
  · rw [findByNodePath,
      if_neg (by simp [startsWithSlash_append_false (joinSegs more) hs0.1 hs0.2]),
      if_neg (append_ne_empty_left (joinSegs more) hs0.1),
      splitSlash_join more s0 hs0.2 hmore]
    exact chain_resolve huniq hvalid hchain

/-- Witness for C2 on a concrete store: root → "a" → "b"; the chain
["a", "b"] leads to the "b" node, its path is "/a/b" = "/" ++ "a/b",
and resolving "a/b" from the root returns it. -/
theorem claim2_witness :
    ∃ rest,
      (BaseTreeItem.mk 2 "b" "/a/b" (some 1) false []).nodePath = "/" ++ rest ∧
      findByNodePath (BaseTreeItem.mk 0 "root" "" none false
          [BaseTreeItem.mk 1 "a" "/a" (some 0) false
            [BaseTreeItem.mk 2 "b" "/a/b" (some 1) false []]]) rest
        = .ok (BaseTreeItem.mk 2 "b" "/a/b" (some 1) false []) := by
  have hb : Chain (BaseTreeItem.mk 1 "a" "/a" (some 0) false
      [BaseTreeItem.mk 2 "b" "/a/b" (some 1) false []]) ["b"]
      (BaseTreeItem.mk 2 "b" "/a/b" (some 1) false []) := by
    exact @Chain.cons
      (BaseTreeItem.mk 1 "a" "/a" (some 0) false
        [BaseTreeItem.mk 2 "b" "/a/b" (some 1) false []])
      (BaseTreeItem.mk 2 "b" "/a/b" (some 1) false [])
      (BaseTreeItem.mk 2 "b" "/a/b" (some 1) false []) []
      (by simp) (Chain.nil _)
  have hab : Chain (BaseTreeItem.mk 0 "root" "" none false
      [BaseTreeItem.mk 1 "a" "/a" (some 0) false
        [BaseTreeItem.mk 2 "b" "/a/b" (some 1) false []]]) ["a", "b"]
      (BaseTreeItem.mk 2 "b" "/a/b" (some 1) false []) := by
    exact @Chain.cons
      (BaseTreeItem.mk 0 "root" "" none false
        [BaseTreeItem.mk 1 "a" "/a" (some 0) false
          [BaseTreeItem.mk 2 "b" "/a/b" (some 1) false []]])
      (BaseTreeItem.mk 1 "a" "/a" (some 0) false
        [BaseTreeItem.mk 2 "b" "/a/b" (some 1) false []])
      (BaseTreeItem.mk 2 "b" "/a/b" (some 1) false []) ["b"]
      (by simp) hb
  exact claim2_insert_resolve_roundtrip _ _ ["a", "b"] rfl rfl rfl rfl hab (by simp)

end ArgosClaims
